import Mathlib

/-!
Shallow embedding of the reference-linking engine of `reflink.go`
(changelog-from-release).  The source operates on a byte buffer; release
notes are ASCII in all inputs considered here, so a byte is modelled as a
`Char` and the buffer as `List Char`.  Go's `int` indices are `Nat` except
where a `-1` index is meaningful (`isBoundaryAt`), which takes an `Int`;
functions returning `-1` as a "no match" sentinel return `Option Nat`.
-/

namespace Reflink

/-- Buffer form of a string literal (its characters). -/
def cs (s : String) : List Char := s.data

/-- Go slice expression `src[s:e]` (well-formed slices only; the segments
supplied by the markdown parser satisfy `s ≤ e ≤ src.length`). -/
def slice (src : List Char) (s e : Nat) : List Char := (src.take e).drop s

/-- Go `bytes.HasPrefix p` / `strings.HasPrefix`: does the second list start
with the first. -/
def hasPre : List Char → List Char → Bool
  | [], _ => true
  | _ :: _, [] => false
  | p :: ps, c :: rest => p == c && hasPre ps rest

/-- `bytes.Index`: leftmost occurrence of `pat` in the list, scanning from
relative index `i`. -/
def findSubFrom (pat : List Char) (i : Nat) : List Char → Option Nat
  | [] => if hasPre pat [] then some i else none
  | c :: rest => if hasPre pat (c :: rest) then some i else findSubFrom pat (i + 1) rest

/-- `bytes.Index(s, pat)`. -/
def findSub (pat s : List Char) : Option Nat := findSubFrom pat 0 s

/-- One step of `strings.ReplaceAll`, with list-length fuel (each step
consumes at least one character, so `s.length` fuel is never exhausted). -/
def replaceLoop (old new : List Char) : Nat → List Char → List Char
  | 0, s => s
  | _ + 1, [] => []
  | fuel + 1, c :: rest =>
    if old ≠ [] ∧ hasPre old (c :: rest) then
      new ++ replaceLoop old new fuel ((c :: rest).drop old.length)
    else
      c :: replaceLoop old new fuel rest

/-- Go `strings.ReplaceAll s old new` (the engine only calls it with the
non-empty pattern `"<num>"`). -/
def replaceAll (s old new : List Char) : List Char := replaceLoop old new s.length s

/-- `isBoundary` from reflink.go: every byte except an ASCII letter or digit
is a boundary. -/
def isBoundary (b : Char) : Bool :=
  if ('0' ≤ b ∧ b ≤ '9') ∨ ('a' ≤ b ∧ b ≤ 'z') ∨ ('A' ≤ b ∧ b ≤ 'Z') then false else true

/-- `isUserNameChar` from reflink.go. -/
def isUserNameChar (b : Char) : Bool :=
  if ('0' ≤ b ∧ b ≤ '9') ∨ ('a' ≤ b ∧ b ≤ 'z') ∨ ('A' ≤ b ∧ b ≤ 'Z') ∨ b = '-' then true else false

/-- ASCII decimal digit test `'0' <= b && b <= '9'` used inline in the source. -/
def isDigitCh (b : Char) : Bool := if '0' ≤ b ∧ b ≤ '9' then true else false

/-- Lowercase-hex test `'0' <= b && b <= '9' || 'a' <= b && b <= 'f'` used by
`linkCommitSHA`. -/
def isHexCh (b : Char) : Bool := if ('0' ≤ b ∧ b ≤ '9') ∨ ('a' ≤ b ∧ b ≤ 'f') then true else false

/-- `[[:xdigit:]]` of the commit-URL regular expression. -/
def isXDigit (b : Char) : Bool :=
  if ('0' ≤ b ∧ b ≤ '9') ∨ ('a' ≤ b ∧ b ≤ 'f') ∨ ('A' ≤ b ∧ b ≤ 'F') then true else false

/-- ASCII word character `[0-9A-Za-z_]` of the regexp `\b` assertion. -/
def isWordChar (b : Char) : Bool :=
  if ('0' ≤ b ∧ b ≤ '9') ∨ ('a' ≤ b ∧ b ≤ 'z') ∨ ('A' ≤ b ∧ b ≤ 'Z') ∨ b = '_' then true else false

/-- A replacement span (`refLink` in the source; Go field `end` is `stop`
here because `end` is reserved in Lean). -/
structure RefLink where
  start : Nat
  stop : Nat
  text : List Char
deriving DecidableEq, Repr

/-- A registered external reference pattern (`extRef` in the source).  The
source stores the compiled regexp `\b<pre>\d+\b` (numeric) or
`\b<pre>[a-zA-Z0-9_]+` (alphanumeric); here the prefix is kept literal and
the `alphanumeric` flag selects which of the two shapes is matched. -/
structure ExtRef where
  pre : List Char
  alphanumeric : Bool
  url : List Char
deriving DecidableEq, Repr

/-- The `Reflinker` state from the source. -/
structure Reflinker where
  repo : List Char
  home : List Char
  src : List Char
  ext : List ExtRef
  links : List RefLink
deriving DecidableEq, Repr

/-- `isBoundaryAt` over an explicit buffer: out-of-range indices (both
negative and past the end) count as boundaries. -/
def boundaryAt (src : List Char) (idx : Int) : Bool :=
  if idx < 0 ∨ (src.length : Int) ≤ idx then true
  else isBoundary (src.getD idx.toNat ' ')

/-- `(*Reflinker).isBoundaryAt`. -/
def Reflinker.isBoundaryAt (l : Reflinker) (idx : Int) : Bool := boundaryAt l.src idx

/-- The digit-consuming loop of `lastIndexIssueRef`.  `bs` is the list of
bytes `src[s+i:e]` still to be examined; the empty list is the loop exit
(`begin+i = end`), which checks `isBoundaryAt end`. -/
def issueLoop (l : Reflinker) (s e : Nat) (i : Nat) : List Char → Option Nat
  | [] => if ¬ l.isBoundaryAt (e : Int) then none else some e
  | b :: rest =>
    if isDigitCh b then issueLoop l s e (i + 1) rest
    else if i = 1 ∨ ¬ isBoundary b then none
    else some (s + i)

/-- `lastIndexIssueRef` (Go returns `-1` for `none`). -/
def lastIndexIssueRef (l : Reflinker) (s e : Nat) : Option Nat :=
  if ¬ l.isBoundaryAt ((s : Int) - 1) then none
  else issueLoop l s e 1 (slice l.src (s + 1) e)

/-- `linkIssueRef`: returns the updated state and the scan-resume offset. -/
def linkIssueRef (l : Reflinker) (s e : Nat) : Reflinker × Nat :=
  match lastIndexIssueRef l s e with
  | none => (l, s + 1)
  | some e2 =>
    let r := slice l.src s e2
    ({ l with links := l.links ++
        [⟨s, e2, cs "[" ++ r ++ cs "](" ++ l.repo ++ cs "/issues/" ++ r.drop 1 ++ cs ")"⟩] },
     e2)

/-- The name-consuming loop of `lastIndexUserRef` (entered with `i = 2`;
`bs` is `src[s+i:e]`; the empty list is the loop exit checking the segment
end conditions). -/
def userLoop (l : Reflinker) (s e : Nat) (i : Nat) : List Char → Option Nat
  | [] =>
    if l.src.getD (e - 1) ' ' = '-' then none
    else if e < l.src.length then
      if ¬ isBoundary (l.src.getD e ' ') ∨ l.src.getD e ' ' = '/' then none else some e
    else some e
  | b :: rest =>
    if isUserNameChar b then userLoop l s e (i + 1) rest
    else if ¬ isBoundary b ∨ b = '/' ∨ l.src.getD (s + i - 1) ' ' = '-' then none
    else some (s + i)

/-- `lastIndexUserRef` (Go returns `-1` for `none`). -/
def lastIndexUserRef (l : Reflinker) (s e : Nat) : Option Nat :=
  if ¬ l.isBoundaryAt ((s : Int) - 1) then none
  else if ¬ isUserNameChar (l.src.getD (s + 1) ' ') ∨ l.src.getD (s + 1) ' ' = '-' then none
  else userLoop l s e 2 (slice l.src (s + 2) e)

/-- `linkUserRef`. -/
def linkUserRef (l : Reflinker) (s e : Nat) : Reflinker × Nat :=
  match lastIndexUserRef l s e with
  | none => (l, s + 1)
  | some e2 =>
    let u := slice l.src s e2
    ({ l with links := l.links ++
        [⟨s, e2, cs "[" ++ u ++ cs "](" ++ l.home ++ cs "/" ++ u.drop 1 ++ cs ")"⟩] },
     e2)

/-- The hex-consuming loop of `linkCommitSHA` (`for i := 1; i < hashLen; i++`):
`some p` is an early exit at position `p` (no link possible), `none` means a
full 40-hex run `src[s:s+40]` inside the segment.  `bs` is `src[s+i:e]`. -/
def commitLoop (s : Nat) (i : Nat) (bs : List Char) : Option Nat :=
  if 40 ≤ i then none
  else
    match bs with
    | [] => some (s + i)
    | b :: rest => if isHexCh b then commitLoop s (i + 1) rest else some (s + i)

/-- `linkCommitSHA`. -/
def linkCommitSHA (l : Reflinker) (s e : Nat) : Reflinker × Nat :=
  match commitLoop s 1 (slice l.src (s + 1) e) with
  | some p => (l, p)
  | none =>
    if l.isBoundaryAt ((s : Int) - 1) ∧ l.isBoundaryAt ((s : Int) + 40) then
      let h := slice l.src s (s + 40)
      ({ l with links := l.links ++
          [⟨s, s + 40, cs "[`" ++ h.take 10 ++ cs "`](" ++ l.repo ++ cs "/commit/" ++ h ++ cs ")"⟩] },
       s + 40)
    else (l, s + 40)

/-- A byte of `bytes.IndexAny(s, "#@1234567890abcdef")`'s search set. -/
def isTrigger (b : Char) : Bool := b = '#' || b = '@' || isHexCh b

/-- `bytes.IndexAny(s, "#@1234567890abcdef")`. -/
def indexAny : List Char → Option Nat
  | [] => none
  | c :: rest => if isTrigger c then some 0 else (indexAny rest).map (· + 1)

/-- The dispatch `switch s[i]` of `linkGitHubRefs`. -/
def ghStep (l : Reflinker) (b : Char) (s e : Nat) : Reflinker × Nat :=
  if b = '#' then linkIssueRef l s e
  else if b = '@' then linkUserRef l s e
  else linkCommitSHA l s e

/-- The scanning loop of `linkGitHubRefs`, with iteration fuel.  Every
matcher strictly advances the offset (proved below), so the initial fuel
`stop - o` is never exhausted while the loop guard holds. -/
def ghRefsLoop (l : Reflinker) (stop : Nat) (o : Nat) : Nat → Reflinker
  | 0 => l
  | fuel + 1 =>
    if o < stop - 1 then
      let s := slice l.src o stop
      match indexAny s with
      | none => l
      | some i =>
        if s.length - 1 ≤ i then l
        else
          let p := ghStep l (s.getD i ' ') (o + i) stop
          ghRefsLoop p.1 stop p.2 fuel
    else l

/-- `linkGitHubRefs` on the text segment `[segStart, segStop)`. -/
def linkGitHubRefs (l : Reflinker) (segStart segStop : Nat) : Reflinker :=
  ghRefsLoop l segStop segStart (segStop - segStart)

/-- Does the regexp word assertion see a word character just left / right of
position `i` (out of range counts as non-word)? -/
def wordAt (s : List Char) (i : Int) : Bool :=
  if 0 ≤ i ∧ i < (s.length : Int) then isWordChar (s.getD i.toNat ' ') else false

/-- The RE2 `\b` assertion at position `i`: a word/non-word transition. -/
def wordBoundAt (s : List Char) (i : Nat) : Bool := wordAt s ((i : Int) - 1) != wordAt s (i : Int)

/-- Match of the compiled pattern of an `extRef` anchored at position `i` of
`s`: `\b<pre>\d+\b` (numeric) or `\b<pre>[a-zA-Z0-9_]+` (alphanumeric).
Returns the end of the match.  Since `\d`/`[a-zA-Z0-9_]` are word
characters, the greedy suffix run is maximal and (in the numeric case) the
trailing `\b` holds exactly when the byte after the maximal run is not a
word character. -/
def extMatchEnd (er : ExtRef) (s : List Char) (i : Nat) : Option Nat :=
  if wordBoundAt s i ∧ hasPre er.pre (s.drop i) then
    let j := i + er.pre.length
    if er.alphanumeric then
      let k := j + ((s.drop j).takeWhile isWordChar).length
      if j < k then some k else none
    else
      let k := j + ((s.drop j).takeWhile isDigitCh).length
      if j < k ∧ wordBoundAt s k then some k else none
  else none

/-- `regexp.FindIndex`: the leftmost match, trying start positions
`i, i+1, ...` (fuel covers every position of `s`). -/
def extFindFrom (er : ExtRef) (s : List Char) (i : Nat) : Nat → Option (Nat × Nat)
  | 0 => none
  | fuel + 1 =>
    match extMatchEnd er s i with
    | some k => some (i, k)
    | none => extFindFrom er s (i + 1) fuel

/-- `ext.pat.FindIndex(s)`. -/
def extFind (er : ExtRef) (s : List Char) : Option (Nat × Nat) :=
  extFindFrom er s 0 (s.length + 1)

/-- The pattern loop of `linkExtRef`: try each registered pattern in order,
first match wins; no match across all patterns returns the window end. -/
def tryExts (l : Reflinker) (start stop : Nat) : List ExtRef → Reflinker × Nat
  | [] => (l, stop)
  | er :: rest =>
    match extFind er (slice l.src start stop) with
    | some (ms, me) =>
      let ref := slice (slice l.src start stop) ms me
      let num := ref.drop er.pre.length
      let url := replaceAll er.url (cs "<num>") num
      ({ l with links := l.links ++
          [⟨start + ms, start + me, cs "[" ++ ref ++ cs "](" ++ url ++ cs ")"⟩] },
       start + me)
    | none => tryExts l start stop rest

/-- `linkExtRef`. -/
def linkExtRef (l : Reflinker) (start stop : Nat) : Reflinker × Nat :=
  tryExts l start stop l.ext

/-- The scanning loop of `linkExtRefs`, with iteration fuel (each step
strictly advances the offset, see below). -/
def extRefsLoop (l : Reflinker) (stop : Nat) (o : Nat) : Nat → Reflinker
  | 0 => l
  | fuel + 1 =>
    if o < stop - 1 then
      let p := linkExtRef l o stop
      extRefsLoop p.1 stop p.2 fuel
    else l

/-- `linkExtRefs` on the text segment `[segStart, segStop)`. -/
def linkExtRefs (l : Reflinker) (segStart segStop : Nat) : Reflinker :=
  extRefsLoop l segStop segStart (segStop - segStart)

/-- `AddExtRef`. -/
def AddExtRef (l : Reflinker) (pre url : List Char) (alphanumeric : Bool) : Reflinker :=
  { l with ext := l.ext ++ [⟨pre, alphanumeric, url⟩] }

/-- `url.Parse` followed by `u.Path = ""; u.String()` for a
`scheme://authority/path` repository URL (no query/fragment/userinfo): the
scheme and authority survive, the path is dropped. -/
def homeOf (u : List Char) : List Char :=
  match findSub (cs "://") u with
  | some i => u.take (i + 3) ++ (u.drop (i + 3)).takeWhile (· ≠ '/')
  | none => u.takeWhile (· ≠ '/')

/-- `NewReflinker`: derives the home URL and registers the implicit default
external pattern `GH-` → `<repo>/issues/<num>` (numeric suffix). -/
def NewReflinker (repoURL : List Char) : Reflinker :=
  AddExtRef
    { repo := repoURL, home := homeOf repoURL, src := [], ext := [], links := [] }
    (cs "GH-") (repoURL ++ cs "/issues/<num>") false

/-- The regexp `^/([^/]+/[^/]+)/commit/([[:xdigit:]]{7,})$` as a parser on
the URL path: owner and repo segments (`[^/]+` can only stop at a `/`, so
the split is unique), the literal `commit` segment, then at least 7 hex
digits running to the end.  Returns `(slug, hash)`. -/
def matchCommitPath (p : List Char) : Option (List Char × List Char) :=
  match p with
  | '/' :: rest =>
    let own := rest.takeWhile (· ≠ '/')
    if own.length = 0 then none
    else
      match rest.drop own.length with
      | '/' :: rest2 =>
        let rep := rest2.takeWhile (· ≠ '/')
        if rep.length = 0 then none
        else
          match rest2.drop rep.length with
          | '/' :: rest3 =>
            if hasPre (cs "commit/") rest3 then
              let hash := rest3.drop 7
              if 7 ≤ hash.length ∧ hash.all isXDigit then some (own ++ '/' :: rep, hash)
              else none
            else none
          | _ => none
      | _ => none
  | _ => none

/-- The `(\d+)(#.+)?$` part of the issue-URL regexp applied to the bytes
after the `pull/` or `issues/` segment: a non-empty greedy digit run, then
either the end of the path or a `#` fragment of at least one non-newline
character running to the end (`.` does not match a newline). -/
def issueTail (slug t : List Char) : Option (List Char × List Char × List Char) :=
  let num := t.takeWhile isDigitCh
  if num.length = 0 then none
  else
    match t.drop num.length with
    | [] => some (slug, num, [])
    | '#' :: fr =>
      if 1 ≤ fr.length ∧ fr.all (· ≠ '\n') then some (slug, num, '#' :: fr)
      else none
    | _ => none

/-- The regexp `^/([^/]+/[^/]+)/(?:pull|issues)/(\d+)(#.+)?$` as a parser:
returns `(slug, number, fragment)` with the fragment empty when absent
(`m[3]` of the source). -/
def matchIssuePath (p : List Char) : Option (List Char × List Char × List Char) :=
  match p with
  | '/' :: rest =>
    let own := rest.takeWhile (· ≠ '/')
    if own.length = 0 then none
    else
      match rest.drop own.length with
      | '/' :: rest2 =>
        let rep := rest2.takeWhile (· ≠ '/')
        if rep.length = 0 then none
        else
          match rest2.drop rep.length with
          | '/' :: rest3 =>
            if hasPre (cs "pull/") rest3 then issueTail (own ++ '/' :: rep) (rest3.drop 5)
            else if hasPre (cs "issues/") rest3 then issueTail (own ++ '/' :: rep) (rest3.drop 7)
            else none
          | _ => none
      | _ => none
  | _ => none

/-- `linkCommitURL`. -/
def linkCommitURL (l : Reflinker) (slug hash url : List Char) (start stop : Nat) : Reflinker :=
  let hash10 := if 10 < hash.length then hash.take 10 else hash
  let replaced :=
    if hasPre l.repo url then cs "[`" ++ hash10 ++ cs "`](" ++ url ++ cs ")"
    else cs "[" ++ slug ++ cs "@`" ++ hash10 ++ cs "`](" ++ url ++ cs ")"
  { l with links := l.links ++ [⟨start, stop, replaced⟩] }

/-- `linkIssueURL`. -/
def linkIssueURL (l : Reflinker) (slug num frag url : List Char) (start stop : Nat) : Reflinker :=
  let note :=
    if 0 < frag.length then
      if hasPre (cs "#pullrequestreview-") frag then cs " (review)" else cs " (comment)"
    else []
  let replaced :=
    if hasPre l.repo url then cs "[#" ++ num ++ note ++ cs "](" ++ url ++ cs ")"
    else cs "[" ++ slug ++ cs "#" ++ num ++ note ++ cs "](" ++ url ++ cs ")"
  { l with links := l.links ++ [⟨start, stop, replaced⟩] }

/-- Body of `linkURL` after the previous-sibling cast succeeded (`start0` is
the segment stop of the previous Text sibling, `0` without one). -/
def linkURLcore (l : Reflinker) (start0 : Nat) (url : List Char) : Reflinker :=
  if ¬ hasPre l.home url then l
  else
    match findSub url (l.src.drop start0) with
    | none => l
    | some off =>
      let start := start0 + off
      let stop := start + url.length
      if l.src.length ≤ start ∨ l.src.length < stop then l
      else if 0 < start ∧ l.src.getD (start - 1) ' ' = '<' ∧ stop < l.src.length ∧
              l.src.getD stop ' ' = '>' then l
      else
        let path := url.drop l.home.length
        match matchCommitPath path with
        | some (slug, hash) => linkCommitURL l slug hash url start stop
        | none =>
          match matchIssuePath path with
          | some (slug, num, frag) => linkIssueURL l slug num frag url start stop
          | none => l

/- The markdown tree the external goldmark parser hands to the walk: Text
(with its byte segment), CodeSpan, Link, AutoLink (with its literal URL),
and every other node kind (`node`: Document, Paragraph, Emphasis, ...). -/
mutual
inductive MdNode where
  | text (startPos stopPos : Nat)
  | codeSpan (children : MdNodes)
  | link (children : MdNodes)
  | autoLink (url : List Char)
  | node (children : MdNodes)
deriving DecidableEq
inductive MdNodes where
  | nil
  | cons (head : MdNode) (tail : MdNodes)
deriving DecidableEq
end

/-- `linkURL`, including the previous-sibling resolution: the source runs
`t := p.(*ast.Text)`, an unchecked type assertion that panics (modelled as
`Except.error`) when the previous sibling is not a Text node — the
`if t == nil` guard after it can never fire for a non-Text sibling. -/
def linkURL (l : Reflinker) (prev : Option MdNode) (url : List Char) : Except Unit Reflinker :=
  match prev with
  | none => .ok (linkURLcore l 0 url)
  | some (.text _ stopPos) => .ok (linkURLcore l stopPos url)
  | some _ => .error ()

/- The `ast.Walk` callback of `Link`: CodeSpan and Link subtrees are
skipped, AutoLink runs the URL classifier (and skips children), Text runs
the two scanning passes, everything else just descends.  `prev` is the
previous sibling of the visited node (`nil` for a first child). -/
mutual
def walkNode (l : Reflinker) (prev : Option MdNode) : MdNode → Except Unit Reflinker
  | .text s e => .ok (linkExtRefs (linkGitHubRefs l s e) s e)
  | .codeSpan _ => .ok l
  | .link _ => .ok l
  | .autoLink url => linkURL l prev url
  | .node children => walkChildren l none children
def walkChildren (l : Reflinker) (prev : Option MdNode) : MdNodes → Except Unit Reflinker
  | .nil => .ok l
  | .cons n rest =>
    match walkNode l prev n with
    | .error e => .error e
    | .ok l2 => walkChildren l2 (some n) rest
end

/-- Insertion into a list sorted by `start` (the sort of `buildLinkedText`;
the comparison is exactly `byStart.Less`). -/
def insertByStart (r : RefLink) : List RefLink → List RefLink
  | [] => [r]
  | x :: xs => if r.start < x.start then r :: x :: xs else x :: insertByStart r xs

/-- `sort.Sort(byStart(l.links))`. -/
def sortByStart (rs : List RefLink) : List RefLink := rs.foldr insertByStart []

/-- The rebuilding loop of `buildLinkedText`.  Go's slice expressions
`src[i:r.start]` and `src[i:]` panic (modelled as `Except.error`) when the
bounds are out of order or out of range. -/
def buildLoop (src : List Char) (i : Nat) : List RefLink → Except Unit (List Char)
  | [] => if i ≤ src.length then .ok (src.drop i) else .error ()
  | r :: rest =>
    if i ≤ r.start ∧ r.start ≤ src.length then
      match buildLoop src r.stop rest with
      | .error e => .error e
      | .ok t => .ok (slice src i r.start ++ r.text ++ t)
    else .error ()

/-- `buildLinkedText`. -/
def buildLinkedText (l : Reflinker) : Except Unit (List Char) :=
  buildLoop l.src 0 (sortByStart l.links)

/-- `isLinkDetected`. -/
def isLinkDetected (l : Reflinker) : Bool := 0 < l.links.length

/-- `Link` (the `Transform` entry point of the spec): reset the per-call
state, walk the tree the external parser produced for `input`, and either
return the input unchanged (no links) or rebuild. -/
def Transform (l0 : Reflinker) (input : List Char) (tree : MdNode) : Except Unit (List Char) :=
  let l : Reflinker := { l0 with src := input, links := [] }
  match walkNode l none tree with
  | .error e => .error e
  | .ok l2 => if isLinkDetected l2 then buildLinkedText l2 else .ok input

/-- The session for repository `https://github.com/o/r` used throughout the
spec's examples. -/
def sessionOR : Reflinker := NewReflinker (cs "https://github.com/o/r")

/-- The tree goldmark produces for a one-line paragraph of plain text:
Document > Paragraph > Text with the given segment. -/
def plainTree (a b : Nat) : MdNode := .node (.cons (.node (.cons (.text a b) .nil)) .nil)

/-- The tree goldmark produces for a paragraph that is a single bare URL:
Document > Paragraph > AutoLink. -/
def autoLinkTree (url : List Char) : MdNode := .node (.cons (.node (.cons (.autoLink url) .nil)) .nil)

/-- The tree goldmark produces for a one-line paragraph that begins with a
single unmatched flanking `_` emphasis delimiter: the delimiter is
restored as its own Text node, and the rest of the line is a second Text
node (Document > Paragraph > Text `[0,1)` + Text `[1,n)`). -/
def splitUnderscoreTree (n : Nat) : MdNode :=
  .node (.cons (.node (.cons (.text 0 1) (.cons (.text 1 n) .nil))) .nil)

/-- Claim C1's acceptance rule for an issue reference, exactly as worded:
boundary (or buffer start) before the `#`, at least one digit, and either
the digits run to the segment end (then accept) or the first non-digit
byte after them is a boundary.  Returns the match end. -/
def issueRefClaimed (src : List Char) (s e : Nat) : Option Nat :=
  let k := ((slice src (s + 1) e).takeWhile isDigitCh).length
  if boundaryAt src ((s : Int) - 1) = true ∧ 1 ≤ k ∧
      (s + 1 + k < e → isBoundary (src.getD (s + 1 + k) ' ') = true)
  then some (s + 1 + k) else none

/-- The amended acceptance rule: when the digits run to the segment end,
the byte of the buffer at the segment end must additionally be a boundary
(a buffer edge counts as one) — the `isBoundaryAt(end)` check of
`lastIndexIssueRef`. -/
def issueRefAmended (src : List Char) (s e : Nat) : Option Nat :=
  let k := ((slice src (s + 1) e).takeWhile isDigitCh).length
  if boundaryAt src ((s : Int) - 1) = true ∧ 1 ≤ k ∧
      (s + 1 + k < e → isBoundary (src.getD (s + 1 + k) ' ') = true) ∧
      (¬ s + 1 + k < e → boundaryAt src (e : Int) = true)
  then some (s + 1 + k) else none

/-- Claim C4's acceptance rule for a user mention, as worded: boundary (or
buffer start) before the `@`; the first byte after `@` alphanumeric (hence
not `-`); then the maximal run of alphanumerics-or-hyphens inside the
segment; the run must not end in `-`, and the byte of the buffer just
after the run (if any) must be a boundary other than `/`. -/
def userRefClaimed (src : List Char) (s e : Nat) : Option Nat :=
  let k := ((slice src (s + 1) e).takeWhile isUserNameChar).length
  let p := s + 1 + k
  if boundaryAt src ((s : Int) - 1) = true ∧
      isBoundary (src.getD (s + 1) ' ') = false ∧ src.getD (s + 1) ' ' ≠ '-' ∧
      src.getD (p - 1) ' ' ≠ '-' ∧
      (p < src.length → (isBoundary (src.getD p ' ') = true ∧ src.getD p ' ' ≠ '/'))
  then some p else none

/-- The output shape of the rebuilding loop with each span's replacement
supplied by `f`. -/
def rebuildWith (src : List Char) (f : RefLink → List Char) : Nat → List RefLink → List Char
  | i, [] => src.drop i
  | i, r :: rest => slice src i r.start ++ f r ++ rebuildWith src f r.stop rest

/-- The spans, in order, are mutually non-overlapping, in-range, and start
at or after position `i`. -/
def spansOK (src : List Char) : Nat → List RefLink → Prop
  | i, [] => i ≤ src.length
  | i, r :: rest => i ≤ r.start ∧ r.start ≤ r.stop ∧ r.stop ≤ src.length ∧ spansOK src r.stop rest

/-! ### Helper lemmas about the list primitives -/

theorem hasPre_refl : ∀ t : List Char, hasPre t t = true
  | [] => rfl
  | c :: rest => by simp [hasPre, hasPre_refl rest]

theorem hasPre_append (p t : List Char) : hasPre p (p ++ t) = true := by
  induction p with
  | nil => rfl
  | cons c rest ih => simp [hasPre, ih]

theorem findSub_self (t : List Char) : findSub t t = some 0 := by
  cases t with
  | nil => rfl
  | cons c rest => simp [findSub, findSubFrom, hasPre_refl]

theorem hasPre_cons_getD (a : Char) (ps s : List Char) (i : Nat)
    (h : hasPre (a :: ps) (s.drop i) = true) : i < s.length ∧ s.getD i ' ' = a := by
  cases hd : s.drop i with
  | nil => rw [hd] at h; simp [hasPre] at h
  | cons b rest =>
    rw [hd] at h
    simp only [hasPre, Bool.and_eq_true, beq_iff_eq] at h
    have hb : s[i]? = some b := by
      have := List.getElem?_drop s i 0
      rw [hd] at this; simpa using this.symm
    have hlen : i < s.length := by
      by_contra hc
      rw [List.getElem?_eq_none (by omega)] at hb; cases hb
    refine ⟨hlen, ?_⟩
    rw [List.getD_eq_getElem?_getD, hb]
    exact h.1.symm

theorem slice_eq_drop_take (src : List Char) (s e : Nat) (h : s ≤ e) :
    slice src s e = (src.drop s).take (e - s) := by
  unfold slice
  rw [List.take_drop]
  congr 2
  omega

theorem slice_length (src : List Char) (s e : Nat) (h2 : e ≤ src.length) :
    (slice src s e).length = e - s := by
  simp [slice]
  omega

theorem slice_getD (src : List Char) (s e j : Nat) (d : Char) (h1 : s + j < e)
    (h2 : e ≤ src.length) : (slice src s e).getD j d = src.getD (s + j) d := by
  simp only [slice, List.getD_eq_getElem?_getD, List.getElem?_drop,
    List.getElem?_take_of_lt h1]

theorem slice_cons (src : List Char) (s e : Nat) (h1 : s < e) (h2 : s < src.length) :
    slice src s e = src.getD s ' ' :: slice src (s + 1) e := by
  rw [slice_eq_drop_take src s e (by omega), slice_eq_drop_take src (s + 1) e (by omega),
    List.drop_eq_getElem_cons h2]
  have he : e - s = (e - (s + 1)) + 1 := by omega
  rw [he, List.take_succ_cons]
  congr 1
  exact (List.getD_eq_getElem src ' ' h2).symm

theorem slice_append_drop (src : List Char) (a b : Nat) (h : a ≤ b) :
    slice src a b ++ src.drop b = src.drop a := by
  rw [slice_eq_drop_take src a b h]
  have : src.drop b = ((src.drop a).drop (b - a)) := by
    rw [List.drop_drop]
    congr 1
    omega
  rw [this, List.take_append_drop]

/-! ### Forward progress of the scanning loops -/

theorem issueLoop_some (l : Reflinker) (s e : Nat) :
    ∀ (bs : List Char) (i r : Nat), issueLoop l s e i bs = some r → s + i ≤ r ∨ r = e := by
  intro bs
  induction bs with
  | nil =>
    intro i r h
    simp only [issueLoop] at h
    split at h
    · cases h
    · right; cases h; rfl
  | cons b rest ih =>
    intro i r h
    simp only [issueLoop] at h
    split at h
    · rcases ih (i + 1) r h with h2 | h2
      · left; omega
      · right; exact h2
    · split at h
      · cases h
      · left; cases h; omega

theorem linkIssueRef_progress (l : Reflinker) (s e : Nat) (h : s + 1 < e) :
    s < (linkIssueRef l s e).2 := by
  unfold linkIssueRef
  cases hm : lastIndexIssueRef l s e with
  | none => simp
  | some r =>
    simp only
    unfold lastIndexIssueRef at hm
    split at hm
    · cases hm
    · rcases issueLoop_some l s e _ 1 r hm with h2 | h2 <;> omega

theorem userLoop_some (l : Reflinker) (s e : Nat) :
    ∀ (bs : List Char) (i r : Nat), userLoop l s e i bs = some r → s + i ≤ r ∨ r = e := by
  intro bs
  induction bs with
  | nil =>
    intro i r h
    simp only [userLoop] at h
    split at h
    · cases h
    · split at h
      · split at h
        · cases h
        · right; cases h; rfl
      · right; cases h; rfl
  | cons b rest ih =>
    intro i r h
    simp only [userLoop] at h
    split at h
    · rcases ih (i + 1) r h with h2 | h2
      · left; omega
      · right; exact h2
    · split at h
      · cases h
      · left; cases h; omega

theorem linkUserRef_progress (l : Reflinker) (s e : Nat) (h : s + 1 < e) :
    s < (linkUserRef l s e).2 := by
  unfold linkUserRef
  cases hm : lastIndexUserRef l s e with
  | none => simp
  | some r =>
    simp only
    unfold lastIndexUserRef at hm
    split at hm
    · cases hm
    · split at hm
      · cases hm
      · rcases userLoop_some l s e _ 2 r hm with h2 | h2 <;> omega

theorem commitLoop_some (s : Nat) :
    ∀ (bs : List Char) (i r : Nat), commitLoop s i bs = some r → s + i ≤ r := by
  intro bs
  induction bs with
  | nil =>
    intro i r h
    simp only [commitLoop] at h
    split at h
    · cases h
    · cases h; omega
  | cons b rest ih =>
    intro i r h
    simp only [commitLoop] at h
    split at h
    · cases h
    · split at h
      · have := ih (i + 1) r h; omega
      · cases h; omega

theorem linkCommitSHA_progress (l : Reflinker) (s e : Nat) :
    s < (linkCommitSHA l s e).2 := by
  unfold linkCommitSHA
  cases hm : commitLoop s 1 (slice l.src (s + 1) e) with
  | some p =>
    simp only
    have := commitLoop_some s _ 1 p hm
    omega
  | none =>
    simp only
    split <;> simp <;> omega

theorem ghStep_progress (l : Reflinker) (b : Char) (s e : Nat) (h : s + 1 < e) :
    s < (ghStep l b s e).2 := by
  unfold ghStep
  split
  · exact linkIssueRef_progress l s e h
  · split
    · exact linkUserRef_progress l s e h
    · exact linkCommitSHA_progress l s e

theorem extMatchEnd_some (er : ExtRef) (s : List Char) (i k : Nat)
    (h : extMatchEnd er s i = some k) :
    wordBoundAt s i = true ∧ hasPre er.pre (s.drop i) = true ∧ i + er.pre.length < k := by
  unfold extMatchEnd at h
  simp only [] at h
  split at h
  · next hc =>
    refine ⟨hc.1, hc.2, ?_⟩
    split at h
    · split at h
      · cases h; omega
      · cases h
    · split at h
      · next hk => cases h; omega
      · cases h
  · cases h

theorem extFindFrom_some (er : ExtRef) (s : List Char) :
    ∀ (fuel i ms me : Nat), extFindFrom er s i fuel = some (ms, me) →
      extMatchEnd er s ms = some me ∧ i ≤ ms := by
  intro fuel
  induction fuel with
  | zero => intro i ms me h; cases h
  | succ f ih =>
    intro i ms me h
    simp only [extFindFrom] at h
    cases hm : extMatchEnd er s i with
    | some k => rw [hm] at h; cases h; exact ⟨hm, Nat.le_refl _⟩
    | none =>
      rw [hm] at h
      have := ih (i + 1) ms me h
      exact ⟨this.1, by omega⟩

theorem tryExts_progress (l : Reflinker) (s e : Nat) :
    ∀ ers : List ExtRef, (tryExts l s e ers).2 = e ∨ s < (tryExts l s e ers).2 := by
  intro ers
  induction ers with
  | nil => left; rfl
  | cons er rest ih =>
    simp only [tryExts]
    cases hf : extFind er (slice l.src s e) with
    | some p =>
      rcases p with ⟨ms, me⟩
      right
      have := extFindFrom_some er _ _ _ ms me hf
      have := extMatchEnd_some er _ ms me this.1
      simp only
      omega
    | none => simpa using ih

theorem linkExtRef_progress (l : Reflinker) (o stop : Nat) (h : o < stop - 1) :
    o < (linkExtRef l o stop).2 := by
  unfold linkExtRef
  rcases tryExts_progress l o stop l.ext with h2 | h2
  · omega
  · exact h2

/-- Fuel irrelevance for the `linkGitHubRefs` loop: any fuel of at least
`stop - 1 - o` (one unit per possible offset) computes the same result, so
the fuel `stop - o` used by `linkGitHubRefs` models Go's unfueled loop
exactly; the loop always terminates because every matcher strictly
advances the offset. -/
theorem ghRefsLoop_fuel (stop : Nat) :
    ∀ (fuel1 : Nat) (l : Reflinker) (o fuel2 : Nat), stop - 1 - o ≤ fuel1 → stop - 1 - o ≤ fuel2 →
      ghRefsLoop l stop o fuel1 = ghRefsLoop l stop o fuel2 := by
  intro fuel1
  induction fuel1 with
  | zero =>
    intro l o fuel2 h1 h2
    have ho : ¬ o < stop - 1 := by omega
    cases fuel2 with
    | zero => rfl
    | succ f2 => simp [ghRefsLoop, ho]
  | succ f1 ih =>
    intro l o fuel2 h1 h2
    by_cases ho : o < stop - 1
    · cases fuel2 with
      | zero => omega
      | succ f2 =>
        simp only [ghRefsLoop, if_pos ho]
        cases hidx : indexAny (slice l.src o stop) with
        | none => rfl
        | some i =>
          simp only
          by_cases hi : (slice l.src o stop).length - 1 ≤ i
          · simp [hi]
          · simp only [if_neg hi]
            have hlen : (slice l.src o stop).length ≤ stop - o := by
              simp [slice]; omega
            have hoi : o + i + 1 < stop := by omega
            have hp := ghStep_progress l ((slice l.src o stop).getD i ' ') (o + i) stop hoi
            have hle : o < (ghStep l ((slice l.src o stop).getD i ' ') (o + i) stop).2 := by
              omega
            exact ih _ _ f2 (by omega) (by omega)
    · cases fuel2 with
      | zero => simp [ghRefsLoop, ho]
      | succ f2 => simp [ghRefsLoop, ho]

/-- The digit loop of `lastIndexIssueRef`, characterized: with `k` leading
digits in the remaining bytes, an in-list terminator accepts exactly when
the digit run is non-empty (`i + k ≠ 1`) and the terminator is a boundary;
running off the list defers to the boundary test at the segment end. -/
theorem issueLoop_eq (l : Reflinker) (s e : Nat) :
    ∀ (bs : List Char) (i : Nat), 1 ≤ i →
      issueLoop l s e i bs =
        (if (bs.takeWhile isDigitCh).length < bs.length then
          (if i + (bs.takeWhile isDigitCh).length = 1 then none
           else if isBoundary (bs.getD (bs.takeWhile isDigitCh).length ' ') then
             some (s + i + (bs.takeWhile isDigitCh).length)
           else none)
         else if boundaryAt l.src (e : Int) then some e else none) := by
  intro bs
  induction bs with
  | nil =>
    intro i hi
    cases hb : boundaryAt l.src (e : Int) <;>
      simp [issueLoop, Reflinker.isBoundaryAt, hb]
  | cons b rest ih =>
    intro i hi
    by_cases hd : isDigitCh b = true
    · have hlhs : issueLoop l s e i (b :: rest) = issueLoop l s e (i + 1) rest := by
        simp [issueLoop, hd]
      rw [hlhs, ih (i + 1) (by omega)]
      have hk : ((b :: rest).takeWhile isDigitCh).length
          = (rest.takeWhile isDigitCh).length + 1 := by
        simp [List.takeWhile_cons, hd]
      rw [hk]
      simp only [List.length_cons, List.getD_cons_succ]
      refine if_congr (by omega) (if_congr (by omega) rfl (if_congr Iff.rfl ?_ rfl)) rfl
      congr 1
      omega
    · have hk : ((b :: rest).takeWhile isDigitCh).length = 0 := by
        simp [List.takeWhile_cons, hd]
      rw [hk]
      have hlhs : issueLoop l s e i (b :: rest) =
          (if i = 1 ∨ ¬ isBoundary b = true then none else some (s + i)) := by
        simp [issueLoop, hd]
      rw [hlhs, if_pos (show 0 < (b :: rest).length by simp)]
      by_cases hi1 : i = 1
      · simp [hi1]
      · by_cases hb : isBoundary b = true
        · simp [hi1, hb, List.getD_cons_zero]
        · simp [hi1, hb, List.getD_cons_zero]

/-- `lastIndexIssueRef` computes exactly the amended acceptance rule on a
well-formed, non-degenerate segment. -/
theorem lastIndexIssueRef_eq_amended (l : Reflinker) (s e : Nat)
    (h1 : s + 1 < e) (h2 : e ≤ l.src.length) :
    lastIndexIssueRef l s e = issueRefAmended l.src s e := by
  unfold lastIndexIssueRef issueRefAmended
  by_cases hbnd : boundaryAt l.src ((s : Int) - 1) = true
  · rw [if_neg (by simp [Reflinker.isBoundaryAt, hbnd])]
    rw [issueLoop_eq l s e _ 1 (le_refl 1)]
    have hlen : (slice l.src (s + 1) e).length = e - (s + 1) := slice_length l.src (s + 1) e h2
    have hkle : ((slice l.src (s + 1) e).takeWhile isDigitCh).length ≤ e - (s + 1) := by
      rw [← hlen]
      exact (List.takeWhile_sublist _).length_le
    rw [hlen]
    by_cases hA : ((slice l.src (s + 1) e).takeWhile isDigitCh).length < e - (s + 1)
    · rw [if_pos hA]
      by_cases hk0 : ((slice l.src (s + 1) e).takeWhile isDigitCh).length = 0
      · rw [if_pos (by omega), if_neg (by rintro ⟨-, hc, -⟩; omega)]
      · rw [if_neg (by omega)]
        have hgd : (slice l.src (s + 1) e).getD
              ((slice l.src (s + 1) e).takeWhile isDigitCh).length ' '
            = l.src.getD (s + 1 + ((slice l.src (s + 1) e).takeWhile isDigitCh).length) ' ' :=
          slice_getD l.src (s + 1) e _ ' ' (by omega) h2
        rw [hgd]
        by_cases hB : isBoundary
            (l.src.getD (s + 1 + ((slice l.src (s + 1) e).takeWhile isDigitCh).length) ' ') = true
        · rw [if_pos hB, if_pos ⟨hbnd, by omega, fun _ => hB, fun hc => absurd (by omega) hc⟩]
        · rw [if_neg hB, if_neg (by
            rintro ⟨-, -, hc, -⟩
            exact hB (hc (by omega)))]
    · rw [if_neg hA]
      have hke : s + 1 + ((slice l.src (s + 1) e).takeWhile isDigitCh).length = e := by omega
      by_cases hb2 : boundaryAt l.src (e : Int) = true
      · rw [if_pos hb2, if_pos ⟨hbnd, by omega, fun hc => absurd hc (by omega), fun _ => hb2⟩]
        rw [hke]
      · rw [if_neg hb2, if_neg (by
          rintro ⟨-, -, -, hc⟩
          exact hb2 (hc (by omega)))]
  · rw [if_pos (by simp [Reflinker.isBoundaryAt, hbnd]),
      if_neg (by rintro ⟨hc, -⟩; exact hbnd hc)]

/-- Claim C1 counterexample: on the segment `[0,2)` of buffer `#1a` the
digit run reaches the segment end, so the claim as stated accepts with end
2; `lastIndexIssueRef` rejects, because the buffer byte `a` at the segment
end fails the `isBoundaryAt(end)` check the claim omits. -/
theorem C1_counterexample :
    issueRefClaimed (cs "#1a") 0 2 = some 2 ∧
    lastIndexIssueRef { sessionOR with src := cs "#1a" } 0 2 = none :=
  ⟨by decide, rfl⟩

/-- Claim C1, amended: an issue reference starting at `#` is accepted
exactly when the byte before the `#` is a boundary (or the `#` is at
buffer start), at least one digit follows, and either the first non-digit
byte after the digits inside the segment is a boundary, or the digits run
to the segment end AND the buffer byte at the segment end (a buffer edge
counting as a boundary) is a boundary; on acceptance the span is replaced
by `[#NNN](<repo>/issues/NNN)`, so `fixed #123` links while `abc#123` and
`#123abc` stay unchanged. -/
theorem C1_issue_ref :
    (∀ (l : Reflinker) (s e : Nat), s + 1 < e → e ≤ l.src.length →
        lastIndexIssueRef l s e = issueRefAmended l.src s e) ∧
    (∀ (l : Reflinker) (s e e2 : Nat), lastIndexIssueRef l s e = some e2 →
        linkIssueRef l s e = ({ l with links := l.links ++ [⟨s, e2,
          cs "[" ++ slice l.src s e2 ++ cs "](" ++ l.repo ++ cs "/issues/" ++
            (slice l.src s e2).drop 1 ++ cs ")"⟩] }, e2)) ∧
    Transform sessionOR (cs "fixed #123") (plainTree 0 10)
      = .ok (cs "fixed [#123](https://github.com/o/r/issues/123)") ∧
    Transform sessionOR (cs "abc#123") (plainTree 0 7) = .ok (cs "abc#123") ∧
    Transform sessionOR (cs "#123abc") (plainTree 0 7) = .ok (cs "#123abc") := by
  refine ⟨lastIndexIssueRef_eq_amended, ?_, rfl, rfl, rfl⟩
  intro l s e e2 h
  simp only [linkIssueRef, h]

/-- Witness for C1 at a concrete segment and input. -/
theorem C1_issue_ref_witness :
    lastIndexIssueRef { sessionOR with src := cs "x #12 y" } 2 7
      = issueRefAmended (cs "x #12 y") 2 7 :=
  C1_issue_ref.1 { sessionOR with src := cs "x #12 y" } 2 7 (by decide) (by decide)

theorem isBoundary_eq_false_iff (b : Char) :
    isBoundary b = false ↔
      (('0' ≤ b ∧ b ≤ '9') ∨ ('a' ≤ b ∧ b ≤ 'z') ∨ ('A' ≤ b ∧ b ≤ 'Z')) := by
  unfold isBoundary
  split_ifs with h <;> simp [h]

theorem isUserNameChar_eq_true_iff (b : Char) :
    isUserNameChar b = true ↔
      (('0' ≤ b ∧ b ≤ '9') ∨ ('a' ≤ b ∧ b ≤ 'z') ∨ ('A' ≤ b ∧ b ≤ 'Z') ∨ b = '-') := by
  unfold isUserNameChar
  split_ifs with h <;> simp [h]

/-- A byte is alphanumeric (not a boundary) exactly when it is a username
character other than `-`. -/
theorem alnum_iff_username_not_dash (b : Char) :
    (isUserNameChar b = true ∧ b ≠ '-') ↔ isBoundary b = false := by
  rw [isBoundary_eq_false_iff, isUserNameChar_eq_true_iff]
  constructor
  · rintro ⟨h, hne⟩
    rcases h with h | h | h | h
    · exact Or.inl h
    · exact Or.inr (Or.inl h)
    · exact Or.inr (Or.inr h)
    · exact absurd h hne
  · intro h
    refine ⟨?_, ?_⟩
    · rcases h with h | h | h
      · exact Or.inl h
      · exact Or.inr (Or.inl h)
      · exact Or.inr (Or.inr (Or.inl h))
    · rintro rfl
      revert h
      decide

/-- The name loop of `lastIndexUserRef`, characterized: with `k` leading
username characters in the remaining bytes, an in-list terminator accepts
exactly when it is a boundary other than `/` and the preceding byte is not
`-`; running off the list defers to the segment-end checks. -/
theorem userLoop_eq (l : Reflinker) (s e : Nat) :
    ∀ (bs : List Char) (i : Nat),
      userLoop l s e i bs =
        (if (bs.takeWhile isUserNameChar).length < bs.length then
          (if ¬ isBoundary (bs.getD (bs.takeWhile isUserNameChar).length ' ') = true
              ∨ bs.getD (bs.takeWhile isUserNameChar).length ' ' = '/'
              ∨ l.src.getD (s + i + (bs.takeWhile isUserNameChar).length - 1) ' ' = '-'
           then none else some (s + i + (bs.takeWhile isUserNameChar).length))
         else
          (if l.src.getD (e - 1) ' ' = '-' then none
           else if e < l.src.length then
             (if ¬ isBoundary (l.src.getD e ' ') = true ∨ l.src.getD e ' ' = '/' then none
              else some e)
           else some e)) := by
  intro bs
  induction bs with
  | nil =>
    intro i
    simp [userLoop]
  | cons b rest ih =>
    intro i
    by_cases hun : isUserNameChar b = true
    · have hlhs : userLoop l s e i (b :: rest) = userLoop l s e (i + 1) rest := by
        simp [userLoop, hun]
      rw [hlhs, ih (i + 1)]
      have hk : ((b :: rest).takeWhile isUserNameChar).length
          = (rest.takeWhile isUserNameChar).length + 1 := by
        simp [List.takeWhile_cons, hun]
      rw [hk]
      simp only [List.length_cons, List.getD_cons_succ]
      have e1 : s + (i + 1) + (rest.takeWhile isUserNameChar).length
          = s + i + ((rest.takeWhile isUserNameChar).length + 1) := by omega
      rw [e1]
      exact if_congr (by omega) rfl rfl
    · have hk : ((b :: rest).takeWhile isUserNameChar).length = 0 := by
        simp [List.takeWhile_cons, hun]
      have hlhs : userLoop l s e i (b :: rest) =
          (if ¬ isBoundary b = true ∨ b = '/' ∨ l.src.getD (s + i - 1) ' ' = '-' then none
           else some (s + i)) := by
        simp [userLoop, hun]
      rw [hlhs, hk, if_pos (show 0 < (b :: rest).length by simp)]
      simp only [List.getD_cons_zero, Nat.add_zero]

/-- `lastIndexUserRef` computes exactly claim C4's acceptance rule on a
well-formed, non-degenerate segment. -/
theorem lastIndexUserRef_eq_claimed (l : Reflinker) (s e : Nat)
    (h1 : s + 1 < e) (h2 : e ≤ l.src.length) :
    lastIndexUserRef l s e = userRefClaimed l.src s e := by
  unfold lastIndexUserRef userRefClaimed
  simp only []
  by_cases hbnd : boundaryAt l.src ((s : Int) - 1) = true
  case neg =>
    rw [if_pos (by simp [Reflinker.isBoundaryAt, hbnd]),
      if_neg (by rintro ⟨hc, -⟩; exact hbnd hc)]
  case pos =>
    rw [if_neg (by simp [Reflinker.isBoundaryAt, hbnd])]
    by_cases halnum : isBoundary (l.src.getD (s + 1) ' ') = false
    case neg =>
      have hguard : ¬ isUserNameChar (l.src.getD (s + 1) ' ') = true
          ∨ l.src.getD (s + 1) ' ' = '-' := by
        by_contra hc
        push_neg at hc
        exact halnum ((alnum_iff_username_not_dash _).mp ⟨hc.1, hc.2⟩)
      rw [if_pos hguard, if_neg (by rintro ⟨-, hc, -⟩; exact halnum hc)]
    case pos =>
      obtain ⟨huser, hdash1⟩ := (alnum_iff_username_not_dash _).mpr halnum
      rw [if_neg (by rintro (hc | hc); exacts [hc huser, hdash1 hc])]
      rw [userLoop_eq l s e _ 2]
      have hs1lt : s + 1 < l.src.length := by omega
      have hcons : slice l.src (s + 1) e
          = l.src.getD (s + 1) ' ' :: slice l.src (s + 2) e :=
        slice_cons l.src (s + 1) e h1 hs1lt
      have hk1 : ((slice l.src (s + 1) e).takeWhile isUserNameChar).length
          = ((slice l.src (s + 2) e).takeWhile isUserNameChar).length + 1 := by
        rw [hcons, List.takeWhile_cons, if_pos huser]
        simp
      rw [hk1]
      have hlen2 : (slice l.src (s + 2) e).length = e - (s + 2) :=
        slice_length l.src (s + 2) e h2
      have hk2le : ((slice l.src (s + 2) e).takeWhile isUserNameChar).length ≤ e - (s + 2) := by
        rw [← hlen2]
        exact (List.takeWhile_sublist _).length_le
      rw [hlen2]
      have harith : s + 1 + (((slice l.src (s + 2) e).takeWhile isUserNameChar).length + 1)
          = s + 2 + ((slice l.src (s + 2) e).takeWhile isUserNameChar).length := by omega
      rw [harith]
      by_cases hA : ((slice l.src (s + 2) e).takeWhile isUserNameChar).length < e - (s + 2)
      case pos =>
        rw [if_pos hA]
        have hplt : s + 2 + ((slice l.src (s + 2) e).takeWhile isUserNameChar).length < e := by
          omega
        have hgd : (slice l.src (s + 2) e).getD
              ((slice l.src (s + 2) e).takeWhile isUserNameChar).length ' '
            = l.src.getD (s + 2 + ((slice l.src (s + 2) e).takeWhile isUserNameChar).length) ' ' :=
          slice_getD l.src (s + 2) e _ ' ' hplt h2
        rw [hgd]
        have hidx : s + 2 + ((slice l.src (s + 2) e).takeWhile isUserNameChar).length - 1
            = s + 2 + ((slice l.src (s + 2) e).takeWhile isUserNameChar).length - 1 := rfl
        by_cases hc : ¬ isBoundary
              (l.src.getD (s + 2 + ((slice l.src (s + 2) e).takeWhile isUserNameChar).length) ' ')
              = true
            ∨ l.src.getD (s + 2 + ((slice l.src (s + 2) e).takeWhile isUserNameChar).length) ' '
              = '/'
            ∨ l.src.getD (s + 2 + ((slice l.src (s + 2) e).takeWhile isUserNameChar).length - 1)
              ' ' = '-'
        case pos =>
          rw [if_pos hc, if_neg]
          rintro ⟨-, -, -, h4, h5⟩
          obtain ⟨hb5, hs5⟩ := h5 (by omega)
          rcases hc with hc | hc | hc
          · exact hc hb5
          · exact absurd hc hs5
          · exact h4 hc
        case neg =>
          push_neg at hc
          obtain ⟨hcb, hcs, hcd⟩ := hc
          rw [if_neg (by
              rintro (h | h | h)
              · exact h (by simpa using hcb)
              · exact hcs h
              · exact hcd h),
            if_pos ⟨hbnd, halnum, hdash1, hcd, fun _ => ⟨by simpa using hcb, hcs⟩⟩]
      case neg =>
        rw [if_neg hA]
        have hke : s + 2 + ((slice l.src (s + 2) e).takeWhile isUserNameChar).length = e := by
          omega
        rw [hke]
        by_cases hdash : l.src.getD (e - 1) ' ' = '-'
        case pos =>
          rw [if_pos hdash, if_neg (by rintro ⟨-, -, -, h4, -⟩; exact h4 hdash)]
        case neg =>
          rw [if_neg hdash]
          by_cases helt : e < l.src.length
          case pos =>
            rw [if_pos helt]
            by_cases hterm : ¬ isBoundary (l.src.getD e ' ') = true ∨ l.src.getD e ' ' = '/'
            case pos =>
              rw [if_pos hterm, if_neg]
              rintro ⟨-, -, -, -, h5⟩
              obtain ⟨hb5, hs5⟩ := h5 helt
              rcases hterm with hc | hc
              · exact hc hb5
              · exact hs5 hc
            case neg =>
              push_neg at hterm
              rw [if_neg (by
                  rintro (h | h)
                  · exact h (by simpa using hterm.1)
                  · exact hterm.2 h),
                if_pos ⟨hbnd, halnum, hdash1, hdash, fun _ => ⟨by simpa using hterm.1, hterm.2⟩⟩]
          case neg =>
            rw [if_neg helt,
              if_pos ⟨hbnd, halnum, hdash1, hdash, fun hlt => absurd hlt (by omega)⟩]

/-- Claim C4: a user mention starting at `@` is linked exactly when the
preceding byte is a boundary, the first byte after the `@` is alphanumeric
(in particular not `-`), the following run consists of alphanumerics or
hyphens, the run does not end in `-`, and the terminating byte (if any) is
a boundary other than `/`; on acceptance the replacement is
`[@name](<home>/name)`, so `@foo-bar` becomes
`[@foo-bar](https://github.com/foo-bar)` while `@-foo` stays unchanged. -/
theorem C4_user_mention :
    (∀ (l : Reflinker) (s e : Nat), s + 1 < e → e ≤ l.src.length →
        lastIndexUserRef l s e = userRefClaimed l.src s e) ∧
    (∀ (l : Reflinker) (s e e2 : Nat), lastIndexUserRef l s e = some e2 →
        linkUserRef l s e = ({ l with links := l.links ++ [⟨s, e2,
          cs "[" ++ slice l.src s e2 ++ cs "](" ++ l.home ++ cs "/" ++
            (slice l.src s e2).drop 1 ++ cs ")"⟩] }, e2)) ∧
    Transform sessionOR (cs "@foo-bar") (plainTree 0 8)
      = .ok (cs "[@foo-bar](https://github.com/foo-bar)") ∧
    Transform sessionOR (cs "@-foo") (plainTree 0 5) = .ok (cs "@-foo") := by
  refine ⟨lastIndexUserRef_eq_claimed, ?_, rfl, rfl⟩
  intro l s e e2 h
  simp only [linkUserRef, h]

/-- Witness for C4 at a concrete segment and input. -/
theorem C4_user_mention_witness :
    lastIndexUserRef { sessionOR with src := cs "hi @ab-c!" } 3 9
      = userRefClaimed (cs "hi @ab-c!") 3 9 :=
  C4_user_mention.1 { sessionOR with src := cs "hi @ab-c!" } 3 9 (by decide) (by decide)

theorem slice_take (src : List Char) (a b k : Nat) (h : a + k ≤ b) :
    (slice src a b).take k = slice src a (a + k) := by
  rw [slice_eq_drop_take src a b (by omega), slice_eq_drop_take src a (a + k) (by omega),
    List.take_take]
  congr 1
  omega

/-- The hex loop of `linkCommitSHA`, characterized: starting at counter
`i ≤ 40` it reports a full run (`none`) exactly when the next `40 - i`
bytes exist and are all lowercase hex. -/
theorem commitLoop_none_iff (s : Nat) :
    ∀ (bs : List Char) (i : Nat), i ≤ 40 →
      (commitLoop s i bs = none ↔
        40 - i ≤ bs.length ∧ ((bs.take (40 - i)).all isHexCh = true)) := by
  intro bs
  induction bs with
  | nil =>
    intro i hi
    by_cases h40 : 40 ≤ i <;> simp [commitLoop, h40] <;> omega
  | cons b rest ih =>
    intro i hi
    by_cases h40 : 40 ≤ i
    · have hi40 : i = 40 := by omega
      simp [commitLoop, h40, hi40]
    · simp only [commitLoop, if_neg h40]
      by_cases hx : isHexCh b = true
      · rw [if_pos hx, ih (i + 1) (by omega)]
        have hs : 40 - i = (40 - (i + 1)) + 1 := by omega
        rw [hs, List.take_succ_cons, List.all_cons, hx]
        simp only [List.length_cons, Bool.true_and]
        constructor
        · rintro ⟨ha, hb2⟩
          exact ⟨by omega, hb2⟩
        · rintro ⟨ha, hb2⟩
          exact ⟨by omega, hb2⟩
      · rw [if_neg hx]
        constructor
        · intro h
          cases h
        · rintro ⟨ha, hb2⟩
          have hs : 40 - i = (40 - (i + 1)) + 1 := by omega
          rw [hs, List.take_succ_cons, List.all_cons] at hb2
          simp only [Bool.and_eq_true] at hb2
          exact absurd hb2.1 hx

/-- Claim C3: a commit-hash candidate starting at a hex byte is linked
exactly when a run of exactly forty bytes from `0-9a-f` fits in the
segment and is bounded on both sides (in the buffer) by boundary bytes or
buffer edges; the replacement displays only the first ten hex characters
but uses the full forty-character hash in the URL; a run of only
thirty-nine hex characters produces no link (exactness of the forty-byte
run is enforced by the two boundary conditions, since a hex byte is never
a boundary). -/
theorem C3_commit_sha :
    (∀ (l : Reflinker) (s e : Nat), s < e → e ≤ l.src.length →
      isHexCh (l.src.getD s ' ') = true →
      (((linkCommitSHA l s e).1.links = l.links ++ [⟨s, s + 40,
          cs "[`" ++ (slice l.src s (s + 40)).take 10 ++ cs "`](" ++ l.repo ++ cs "/commit/"
            ++ slice l.src s (s + 40) ++ cs ")"⟩])
        ↔ (s + 40 ≤ e ∧ (slice l.src s (s + 40)).all isHexCh = true ∧
            boundaryAt l.src ((s : Int) - 1) = true ∧
            boundaryAt l.src ((s : Int) + 40) = true)) ∧
      (¬ (s + 40 ≤ e ∧ (slice l.src s (s + 40)).all isHexCh = true ∧
            boundaryAt l.src ((s : Int) - 1) = true ∧
            boundaryAt l.src ((s : Int) + 40) = true) →
        (linkCommitSHA l s e).1 = l)) ∧
    Transform sessionOR (cs "aaaaaaaaaaaaaaaaaaaaaaaaaaaaaaaaaaaaaaaa") (plainTree 0 40)
      = .ok (cs
          "[`aaaaaaaaaa`](https://github.com/o/r/commit/aaaaaaaaaaaaaaaaaaaaaaaaaaaaaaaaaaaaaaaa)")
      ∧
    Transform sessionOR (cs "aaaaaaaaaaaaaaaaaaaaaaaaaaaaaaaaaaaaaaa") (plainTree 0 39)
      = .ok (cs "aaaaaaaaaaaaaaaaaaaaaaaaaaaaaaaaaaaaaaa") := by
  refine ⟨?_, rfl, rfl⟩
  intro l s e h1 h2 h3
  have hlen : (slice l.src (s + 1) e).length = e - (s + 1) := slice_length l.src (s + 1) e h2
  have hiff := commitLoop_none_iff s (slice l.src (s + 1) e) 1 (by omega)
  have hcondiff : commitLoop s 1 (slice l.src (s + 1) e) = none ↔
      (s + 40 ≤ e ∧ (slice l.src s (s + 40)).all isHexCh = true) := by
    rw [hiff, hlen]
    constructor
    · rintro ⟨ha, hb⟩
      have he40 : s + 40 ≤ e := by omega
      rw [slice_take l.src (s + 1) e 39 (by omega)] at hb
      have h39 : s + 1 + 39 = s + 40 := by omega
      rw [h39] at hb
      refine ⟨he40, ?_⟩
      rw [slice_cons l.src s (s + 40) (by omega) (by omega), List.all_cons, h3]
      simpa using hb
    · rintro ⟨ha, hb⟩
      rw [slice_cons l.src s (s + 40) (by omega) (by omega), List.all_cons] at hb
      simp only [Bool.and_eq_true] at hb
      refine ⟨by omega, ?_⟩
      rw [slice_take l.src (s + 1) e 39 (by omega)]
      have h39 : s + 1 + 39 = s + 40 := by omega
      rw [h39]
      exact hb.2
  unfold linkCommitSHA
  cases hm : commitLoop s 1 (slice l.src (s + 1) e) with
  | some p =>
    simp only []
    constructor
    · constructor
      · intro habs
        have := congrArg List.length habs
        simp at this
      · rintro ⟨hc1, hc2, -, -⟩
        rw [hcondiff.mpr ⟨hc1, hc2⟩] at hm
        cases hm
    · intro _
      trivial
  | none =>
    obtain ⟨hc1, hc2⟩ := hcondiff.mp hm
    simp only []
    by_cases hb : l.isBoundaryAt ((s : Int) - 1) = true ∧ l.isBoundaryAt ((s : Int) + 40) = true
    · rw [if_pos hb]
      constructor
      · constructor
        · intro _
          exact ⟨hc1, hc2, hb.1, hb.2⟩
        · intro _
          trivial
      · rintro hc
        exact absurd ⟨hc1, hc2, hb.1, hb.2⟩ hc
    · rw [if_neg hb]
      constructor
      · constructor
        · intro habs
          have := congrArg List.length habs
          simp at this
        · rintro ⟨-, -, hb1, hb2⟩
          exact absurd ⟨hb1, hb2⟩ hb
      · intro _
        trivial

/-- Witness for C3: a ten-hex-byte buffer (run of fewer than forty) emits
no link. -/
theorem C3_commit_sha_witness :
    (linkCommitSHA { sessionOR with src := cs "0123456789" } 0 10).1
      = { sessionOR with src := cs "0123456789" } :=
  (C3_commit_sha.1 { sessionOR with src := cs "0123456789" } 0 10
      (by decide) (by decide) (by decide)).2 (by decide)

theorem hasPre_cons_cons (a : Char) (ps t : List Char) :
    hasPre (a :: ps) (a :: t) = hasPre ps t := by
  simp [hasPre]

theorem takeWhile_append_all (p : Char → Bool) (l1 : List Char) (a : Char) (l2 : List Char)
    (h1 : l1.all p = true) (h2 : p a = false) :
    (l1 ++ a :: l2).takeWhile p = l1 := by
  induction l1 with
  | nil => simp [List.takeWhile_cons, h2]
  | cons c rest ih =>
    simp only [List.all_cons, Bool.and_eq_true] at h1
    simp [List.takeWhile_cons, h1.1, ih h1.2]

/-- Tail parser of the issue regexp on a pure digit run: no fragment. -/
theorem issueTail_num (slug num : List Char) (h1 : 1 ≤ num.length)
    (h2 : num.takeWhile isDigitCh = num) :
    issueTail slug num = some (slug, num, []) := by
  unfold issueTail
  simp only []
  rw [h2, if_neg (by omega), List.drop_length]

/-- Tail parser of the issue regexp on digits followed by a fragment. -/
theorem issueTail_frag (slug num fr : List Char) (h1 : 1 ≤ num.length)
    (h2 : num.all isDigitCh = true) (h3 : 1 ≤ fr.length) (h4 : fr.all (· ≠ '\n') = true) :
    issueTail slug (num ++ '#' :: fr) = some (slug, num, '#' :: fr) := by
  unfold issueTail
  simp only []
  rw [takeWhile_append_all isDigitCh num '#' fr h2 (by decide), if_neg (by omega),
    List.drop_left]
  show (if 1 ≤ fr.length ∧ fr.all (· ≠ '\n') = true then some (slug, num, '#' :: fr)
      else none) = some (slug, num, '#' :: fr)
  rw [if_pos ⟨h3, h4⟩]

/-- Walking the goldmark tree of a paragraph that is one bare URL runs
exactly the URL classifier. -/
theorem transform_autolink (l0 : Reflinker) (input url : List Char) :
    Transform l0 input (autoLinkTree url) =
      (if isLinkDetected (linkURLcore { l0 with src := input, links := [] } 0 url) = true
       then buildLinkedText (linkURLcore { l0 with src := input, links := [] } 0 url)
       else .ok input) := rfl

/-- `linkURLcore` when the buffer is exactly the URL: the guards pass and
the result is decided by the two path parsers. -/
theorem linkURLcore_exact (l : Reflinker) (url path : List Char) (hsrc : l.src = url)
    (hh : hasPre l.home url = true) (hlen : 0 < url.length)
    (hpath : url.drop l.home.length = path) :
    linkURLcore l 0 url =
      (match matchCommitPath path with
       | some (slug, hash) => linkCommitURL l slug hash url 0 url.length
       | none =>
         match matchIssuePath path with
         | some (slug, num, frag) => linkIssueURL l slug num frag url 0 url.length
         | none => l) := by
  unfold linkURLcore
  rw [if_neg (by simp [hh]), List.drop_zero, hsrc, findSub_self]
  simp only [Nat.zero_add]
  rw [if_neg (by omega), if_neg (by simp), hpath]

/-- Rebuilding a single span that covers the whole buffer yields exactly
its replacement text. -/
theorem buildLinkedText_single (l : Reflinker) (r : RefLink) (h : l.links = [r])
    (h0 : r.start = 0) (h1 : r.stop = l.src.length) :
    buildLinkedText l = .ok r.text := by
  unfold buildLinkedText
  rw [h]
  show buildLoop l.src 0 [r] = .ok r.text
  unfold buildLoop
  rw [h0, h1]
  rw [if_pos ⟨le_refl 0, Nat.zero_le _⟩]
  rw [show buildLoop l.src l.src.length [] = .ok (l.src.drop l.src.length) from by
    unfold buildLoop
    rw [if_pos (le_refl _)]]
  simp [slice, List.drop_length]

/-- A single whole-buffer span produced by the classifier determines the
transformation result. -/
theorem transform_autolink_result (l0 : Reflinker) (url : List Char) (r : RefLink)
    (hcls : linkURLcore { l0 with src := url, links := [] } 0 url
        = { l0 with src := url, links := [r] })
    (h0 : r.start = 0) (h1 : r.stop = url.length) :
    Transform l0 url (autoLinkTree url) = .ok r.text := by
  rw [transform_autolink, hcls]
  rw [if_pos (by simp [isLinkDetected])]
  exact buildLinkedText_single _ r rfl h0 h1

/-- No span from the classifier: the input passes through unchanged. -/
theorem transform_autolink_id (l0 : Reflinker) (url : List Char)
    (hcls : linkURLcore { l0 with src := url, links := [] } 0 url
        = { l0 with src := url, links := [] }) :
    Transform l0 url (autoLinkTree url) = .ok url := by
  rw [transform_autolink, hcls]
  simp [isLinkDetected]

theorem matchCommitPath_oR (t : List Char) :
    matchCommitPath (cs "/o/r/commit/" ++ t) =
      (if 7 ≤ t.length ∧ t.all isXDigit = true then some (cs "o/r", t) else none) := rfl

theorem matchCommitPath_xy (t : List Char) :
    matchCommitPath (cs "/x/y/commit/" ++ t) =
      (if 7 ≤ t.length ∧ t.all isXDigit = true then some (cs "x/y", t) else none) := rfl

theorem matchCommitPath_oR_issues_none (t : List Char) :
    matchCommitPath (cs "/o/r/issues/" ++ t) = none := rfl

theorem matchCommitPath_oR_pull_none (t : List Char) :
    matchCommitPath (cs "/o/r/pull/" ++ t) = none := rfl

theorem matchIssuePath_oR_issues (t : List Char) :
    matchIssuePath (cs "/o/r/issues/" ++ t) = issueTail (cs "o/r") t := rfl

theorem matchIssuePath_oR_pull (t : List Char) :
    matchIssuePath (cs "/o/r/pull/" ++ t) = issueTail (cs "o/r") t := rfl

/-- `linkCommitURL` when the URL starts with the repository URL. -/
theorem linkCommitURL_own (l : Reflinker) (slug hash url : List Char) (start stop : Nat)
    (hpre : hasPre l.repo url = true) :
    linkCommitURL l slug hash url start stop = { l with links := l.links ++ [⟨start, stop,
      cs "[`" ++ (if 10 < hash.length then hash.take 10 else hash) ++ cs "`](" ++ url
        ++ cs ")"⟩] } := by
  unfold linkCommitURL
  simp only []
  rw [if_pos hpre]

/-- `linkCommitURL` when the URL does not start with the repository URL. -/
theorem linkCommitURL_foreign (l : Reflinker) (slug hash url : List Char) (start stop : Nat)
    (hpre : hasPre l.repo url = false) :
    linkCommitURL l slug hash url start stop = { l with links := l.links ++ [⟨start, stop,
      cs "[" ++ slug ++ cs "@`" ++ (if 10 < hash.length then hash.take 10 else hash)
        ++ cs "`](" ++ url ++ cs ")"⟩] } := by
  unfold linkCommitURL
  simp only []
  rw [if_neg (show ¬ (hasPre l.repo url = true) from by simp [hpre])]

/-- `linkIssueURL` when the URL starts with the repository URL. -/
theorem linkIssueURL_own (l : Reflinker) (slug num frag url : List Char) (start stop : Nat)
    (hpre : hasPre l.repo url = true) :
    linkIssueURL l slug num frag url start stop = { l with links := l.links ++ [⟨start, stop,
      cs "[#" ++ num ++
        (if 0 < frag.length then
          (if hasPre (cs "#pullrequestreview-") frag then cs " (review)" else cs " (comment)")
         else []) ++ cs "](" ++ url ++ cs ")"⟩] } := by
  unfold linkIssueURL
  simp only []
  rw [if_pos hpre]

/-- The classifier on an own-repository commit URL. -/
theorem linkURLcore_commit_own (hash : List Char) (h7 : 7 ≤ hash.length)
    (hall : hash.all isXDigit = true) :
    linkURLcore { sessionOR with src := cs "https://github.com/o/r/commit/" ++ hash, links := [] }
        0 (cs "https://github.com/o/r/commit/" ++ hash)
      = { sessionOR with src := cs "https://github.com/o/r/commit/" ++ hash, links :=
          [⟨0, (cs "https://github.com/o/r/commit/" ++ hash).length,
            cs "[`" ++ (if 10 < hash.length then hash.take 10 else hash) ++ cs "`](" ++
              (cs "https://github.com/o/r/commit/" ++ hash) ++ cs ")"⟩] } := by
  rw [linkURLcore_exact _ _ (cs "/o/r/commit/" ++ hash) (by rfl)
      (by exact hasPre_append (cs "https://github.com") (cs "/o/r/commit/" ++ hash))
      (by rw [List.length_append]
          have h30 : (cs "https://github.com/o/r/commit/").length = 30 := rfl
          rw [h30]; omega)
      (by rfl)]
  rw [matchCommitPath_oR hash, if_pos ⟨h7, hall⟩]
  simp only []
  rw [linkCommitURL_own _ _ _ _ _ _
      (by exact hasPre_append (cs "https://github.com/o/r") (cs "/commit/" ++ hash))]
  rfl

/-- The classifier on a foreign-slug commit URL (not an extension of the
own repository URL). -/
theorem linkURLcore_commit_foreign (hash : List Char) (h7 : 7 ≤ hash.length)
    (hall : hash.all isXDigit = true) :
    linkURLcore { sessionOR with src := cs "https://github.com/x/y/commit/" ++ hash, links := [] }
        0 (cs "https://github.com/x/y/commit/" ++ hash)
      = { sessionOR with src := cs "https://github.com/x/y/commit/" ++ hash, links :=
          [⟨0, (cs "https://github.com/x/y/commit/" ++ hash).length,
            cs "[" ++ cs "x/y" ++ cs "@`" ++ (if 10 < hash.length then hash.take 10 else hash)
              ++ cs "`](" ++ (cs "https://github.com/x/y/commit/" ++ hash) ++ cs ")"⟩] } := by
  rw [linkURLcore_exact _ _ (cs "/x/y/commit/" ++ hash) (by rfl)
      (by exact hasPre_append (cs "https://github.com") (cs "/x/y/commit/" ++ hash))
      (by rw [List.length_append]
          have h30 : (cs "https://github.com/x/y/commit/").length = 30 := rfl
          rw [h30]; omega)
      (by rfl)]
  rw [matchCommitPath_xy hash, if_pos ⟨h7, hall⟩]
  simp only []
  rw [linkCommitURL_foreign _ _ _ _ _ _ (by rfl)]
  rfl

/-- The classifier on an own-repository issue URL without fragment. -/
theorem linkURLcore_issues_own (num : List Char) (h1 : 1 ≤ num.length)
    (h2 : num.all isDigitCh = true) :
    linkURLcore { sessionOR with src := cs "https://github.com/o/r/issues/" ++ num, links := [] }
        0 (cs "https://github.com/o/r/issues/" ++ num)
      = { sessionOR with src := cs "https://github.com/o/r/issues/" ++ num, links :=
          [⟨0, (cs "https://github.com/o/r/issues/" ++ num).length,
            cs "[#" ++ num ++ cs "](" ++ (cs "https://github.com/o/r/issues/" ++ num)
              ++ cs ")"⟩] } := by
  rw [linkURLcore_exact _ _ (cs "/o/r/issues/" ++ num) (by rfl)
      (by exact hasPre_append (cs "https://github.com") (cs "/o/r/issues/" ++ num))
      (by rw [List.length_append]
          have h30 : (cs "https://github.com/o/r/issues/").length = 30 := rfl
          rw [h30]; omega)
      (by rfl)]
  rw [matchCommitPath_oR_issues_none num]
  rw [matchIssuePath_oR_issues num,
    issueTail_num (cs "o/r") num h1
      (List.takeWhile_eq_self_iff.mpr (by simpa [List.all_eq_true] using h2))]
  simp only []
  rw [linkIssueURL_own _ _ _ _ _ _ _
      (by exact hasPre_append (cs "https://github.com/o/r") (cs "/issues/" ++ num))]
  simp [List.append_nil]

/-- The classifier on an own-repository pull URL with a fragment. -/
theorem linkURLcore_pull_own_frag (fr : List Char) (h3 : 1 ≤ fr.length)
    (h4 : fr.all (· ≠ '\n') = true) :
    linkURLcore { sessionOR with src := cs "https://github.com/o/r/pull/15#" ++ fr, links := [] }
        0 (cs "https://github.com/o/r/pull/15#" ++ fr)
      = { sessionOR with src := cs "https://github.com/o/r/pull/15#" ++ fr, links :=
          [⟨0, (cs "https://github.com/o/r/pull/15#" ++ fr).length,
            cs "[#" ++ cs "15" ++
              (if hasPre (cs "#pullrequestreview-") ('#' :: fr) then cs " (review)"
               else cs " (comment)") ++
              cs "](" ++ (cs "https://github.com/o/r/pull/15#" ++ fr) ++ cs ")"⟩] } := by
  rw [linkURLcore_exact _ _ (cs "/o/r/pull/" ++ (cs "15#" ++ fr)) (by rfl)
      (by exact hasPre_append (cs "https://github.com") (cs "/o/r/pull/15#" ++ fr))
      (by rw [List.length_append]
          have h31 : (cs "https://github.com/o/r/pull/15#").length = 31 := rfl
          rw [h31]; omega)
      (by rfl)]
  rw [matchCommitPath_oR_pull_none (cs "15#" ++ fr)]
  rw [matchIssuePath_oR_pull (cs "15#" ++ fr)]
  rw [show (cs "15#" ++ fr : List Char) = cs "15" ++ '#' :: fr from rfl]
  rw [issueTail_frag (cs "o/r") (cs "15") fr (by decide) (by decide) h3 h4]
  simp only []
  rw [linkIssueURL_own _ _ _ _ _ _ _
      (by exact hasPre_append (cs "https://github.com/o/r") (cs "/pull/15#" ++ fr))]
  rw [if_pos (show 0 < ('#' :: fr).length by simp)]
  rfl

/-- Claim C5 counterexample: the own-repository test is a string-prefix
test on the URL, so the foreign slug `o/rx` — whose URL merely extends the
session's repository URL `https://github.com/o/r` as a string — is
rendered with the own-repository display `` [`shortsha`](url) `` instead
of the claim's `` [owner/repo@`shortsha`](url) ``. -/
theorem C5_counterexample :
    Transform sessionOR (cs "https://github.com/o/rx/commit/aaaaaaaaaa")
        (autoLinkTree (cs "https://github.com/o/rx/commit/aaaaaaaaaa"))
      = .ok (cs "[`aaaaaaaaaa`](https://github.com/o/rx/commit/aaaaaaaaaa)") ∧
    (cs "[`aaaaaaaaaa`](https://github.com/o/rx/commit/aaaaaaaaaa)"
      ≠ cs "[o/rx@`aaaaaaaaaa`](https://github.com/o/rx/commit/aaaaaaaaaa)") :=
  ⟨rfl, by decide⟩

/-- Claim C5, amended: for an AutoLink whose literal URL starts with the
session's home root, a commit-shaped path `/owner/repo/commit/<hex,7+>`
with no fragment is replaced by a link truncating the hash to at most ten
characters for display — `` [`shortsha`](url) `` when the URL starts with
the session's repository URL as a string (in particular for the own
repository), `` [owner/repo@`shortsha`](url) `` otherwise — and a commit
URL carrying a trailing fragment is left untouched; an issue/PR-shaped
path `/owner/repo/(pull|issues)/<number>` with optional fragment becomes
`[#N](url)` (URL extending the repository URL) or `[owner/repo#N](url)`
(foreign), annotated `" (review)"` when the fragment starts with
`#pullrequestreview-` and `" (comment)"` for any other non-empty
fragment. -/
theorem C5_autolink :
    (∀ hash : List Char, 7 ≤ hash.length → hash.all isXDigit = true →
      Transform sessionOR (cs "https://github.com/o/r/commit/" ++ hash)
          (autoLinkTree (cs "https://github.com/o/r/commit/" ++ hash))
        = .ok (cs "[`" ++ (if 10 < hash.length then hash.take 10 else hash) ++ cs "`](" ++
            (cs "https://github.com/o/r/commit/" ++ hash) ++ cs ")")) ∧
    (∀ hash : List Char, 7 ≤ hash.length → hash.all isXDigit = true →
      Transform sessionOR (cs "https://github.com/x/y/commit/" ++ hash)
          (autoLinkTree (cs "https://github.com/x/y/commit/" ++ hash))
        = .ok (cs "[" ++ cs "x/y" ++ cs "@`" ++
            (if 10 < hash.length then hash.take 10 else hash) ++ cs "`](" ++
            (cs "https://github.com/x/y/commit/" ++ hash) ++ cs ")")) ∧
    (∀ num : List Char, 1 ≤ num.length → num.all isDigitCh = true →
      Transform sessionOR (cs "https://github.com/o/r/issues/" ++ num)
          (autoLinkTree (cs "https://github.com/o/r/issues/" ++ num))
        = .ok (cs "[#" ++ num ++ cs "](" ++ (cs "https://github.com/o/r/issues/" ++ num)
            ++ cs ")")) ∧
    (∀ fr : List Char, 1 ≤ fr.length → fr.all (· ≠ '\n') = true →
      Transform sessionOR (cs "https://github.com/o/r/pull/15#" ++ fr)
          (autoLinkTree (cs "https://github.com/o/r/pull/15#" ++ fr))
        = .ok (cs "[#" ++ cs "15" ++
            (if hasPre (cs "#pullrequestreview-") ('#' :: fr) then cs " (review)"
             else cs " (comment)") ++
            cs "](" ++ (cs "https://github.com/o/r/pull/15#" ++ fr) ++ cs ")")) ∧
    Transform sessionOR (cs "https://github.com/x/y/pull/15#pullrequestreview-1")
        (autoLinkTree (cs "https://github.com/x/y/pull/15#pullrequestreview-1"))
      = .ok (cs "[x/y#15 (review)](https://github.com/x/y/pull/15#pullrequestreview-1)") ∧
    Transform sessionOR
        (cs "https://github.com/o/r/commit/0123456789abcdef0123456789abcdef01234567#diff-x")
        (autoLinkTree
          (cs "https://github.com/o/r/commit/0123456789abcdef0123456789abcdef01234567#diff-x"))
      = .ok (cs "https://github.com/o/r/commit/0123456789abcdef0123456789abcdef01234567#diff-x")
    := by
  refine ⟨?_, ?_, ?_, ?_, rfl, rfl⟩
  · intro hash h7 hall
    exact transform_autolink_result sessionOR _ _ (linkURLcore_commit_own hash h7 hall) rfl rfl
  · intro hash h7 hall
    exact transform_autolink_result sessionOR _ _ (linkURLcore_commit_foreign hash h7 hall) rfl rfl
  · intro num h1 h2
    exact transform_autolink_result sessionOR _ _ (linkURLcore_issues_own num h1 h2) rfl rfl
  · intro fr h3 h4
    exact transform_autolink_result sessionOR _ _ (linkURLcore_pull_own_frag fr h3 h4) rfl rfl

/-- Witness for C5 at a concrete commit hash. -/
theorem C5_autolink_witness :
    Transform sessionOR (cs "https://github.com/o/r/commit/" ++ cs "abcdef1")
        (autoLinkTree (cs "https://github.com/o/r/commit/" ++ cs "abcdef1"))
      = .ok (cs "[`" ++ (if 10 < (cs "abcdef1").length then (cs "abcdef1").take 10
          else cs "abcdef1") ++ cs "`](" ++ (cs "https://github.com/o/r/commit/" ++ cs "abcdef1")
          ++ cs ")") :=
  C5_autolink.1 (cs "abcdef1") (by decide) (by decide)

/-- Claim C2: when the engine recognizes no reference in the input (the
walk over the parsed tree collects no spans), `Transform` returns the
input byte-for-byte unchanged. -/
theorem C2_identity (l0 : Reflinker) (input : List Char) (tree : MdNode) (l2 : Reflinker)
    (hw : walkNode { l0 with src := input, links := [] } none tree = .ok l2)
    (hn : l2.links = []) : Transform l0 input tree = .ok input := by
  unfold Transform
  simp only [hw, isLinkDetected, hn]
  simp

/-- Witness for C2 at a concrete reference-free input. -/
theorem C2_identity_witness :
    Transform (NewReflinker (cs "https://github.com/o/r")) (cs "hello world") (plainTree 0 11)
      = .ok (cs "hello world") :=
  C2_identity _ _ _ _ rfl rfl

/-- Claim C7: no span is ever produced from inside a CodeSpan or Link
subtree — the walk skips both wholesale — so inline code like `#123`
passes through `Transform` unchanged, and re-running the transformation on
already-linked output (whose reference now sits inside a Link node) does
not re-link the generated link text. -/
theorem C7_skip_code_and_links :
    (∀ (l : Reflinker) (prev : Option MdNode) (ns : MdNodes),
        walkNode l prev (.codeSpan ns) = .ok l) ∧
    (∀ (l : Reflinker) (prev : Option MdNode) (ns : MdNodes),
        walkNode l prev (.link ns) = .ok l) ∧
    Transform sessionOR (cs "`#123`")
        (.node (.cons (.node (.cons (.codeSpan (.cons (.text 1 5) .nil)) .nil)) .nil))
      = .ok (cs "`#123`") ∧
    Transform sessionOR (cs "fixed [#123](https://github.com/o/r/issues/123)")
        (.node (.cons (.node (.cons (.text 0 6)
          (.cons (.link (.cons (.text 7 11) .nil)) .nil))) .nil))
      = .ok (cs "fixed [#123](https://github.com/o/r/issues/123)") :=
  ⟨fun _ _ _ => rfl, fun _ _ _ => rfl, rfl, rfl⟩

/-- Claim C9 is refuted by the code: the AutoLink handler resolves the
URL's byte position through the node's previous sibling with an unchecked
cast (`p.(*ast.Text)`, whose trailing nil-guard is dead code) that fails
on any non-Text sibling.  On `**foo**<https://github.com/o/r>` — an
AutoLink directly following an Emphasis — the walk aborts (Go panics on
the interface conversion), so the engine is not free of failing casts. -/
theorem C9_autolink_cast_fails :
    (∀ (l : Reflinker) (ns : MdNodes) (u : List Char),
        linkURL l (some (.node ns)) u = .error ()) ∧
    Transform sessionOR (cs "**foo**<https://github.com/o/r>")
        (.node (.cons (.node (.cons (.node (.cons (.text 2 5) .nil))
          (.cons (.autoLink (cs "https://github.com/o/r")) .nil))) .nil))
      = .error () :=
  ⟨fun _ _ _ => rfl, rfl⟩

/-- Rebuilding with non-overlapping, in-range, sorted spans: the loop
succeeds, produces the interleaving of untouched source slices with the
replacements, and the untouched slices plus the spans' source ranges
reconstitute the source exactly. -/
theorem buildLoop_ok (src : List Char) :
    ∀ (rs : List RefLink) (i : Nat), spansOK src i rs →
      buildLoop src i rs = .ok (rebuildWith src (fun r => r.text) i rs) ∧
      rebuildWith src (fun r => slice src r.start r.stop) i rs = src.drop i := by
  intro rs
  induction rs with
  | nil =>
    intro i h
    simp only [spansOK] at h
    exact ⟨by simp [buildLoop, rebuildWith, h], by simp [rebuildWith]⟩
  | cons r rest ih =>
    intro i h
    simp only [spansOK] at h
    obtain ⟨h1, h2, h3, h4⟩ := h
    obtain ⟨ihb, ihr⟩ := ih r.stop h4
    constructor
    · simp only [buildLoop, rebuildWith]
      rw [if_pos ⟨h1, by omega⟩, ihb]
    · simp only [rebuildWith]
      rw [ihr, List.append_assoc, slice_append_drop src r.start r.stop h2,
        slice_append_drop src i r.start h1]

/-- Claim C8, amended: the spans of one call are not always
non-overlapping (see the counterexample), but whenever the collected
spans, sorted by start, are mutually non-overlapping with in-range bounds,
every slice taken by the rebuilder is in range and non-crossing, and each
source byte is emitted exactly once: substituting each span's source range
back for its replacement reconstitutes the source exactly. -/
theorem C8_rebuild (l : Reflinker) (h : spansOK l.src 0 (sortByStart l.links)) :
    buildLinkedText l = .ok (rebuildWith l.src (fun r => r.text) 0 (sortByStart l.links)) ∧
    rebuildWith l.src (fun r => slice l.src r.start r.stop) 0 (sortByStart l.links) = l.src := by
  obtain ⟨hb, hr⟩ := buildLoop_ok l.src (sortByStart l.links) 0 h
  exact ⟨hb, by simpa using hr⟩

/-- Witness for C8 on a concrete span list. -/
theorem C8_rebuild_witness :
    buildLinkedText { sessionOR with src := cs "see #1 x", links := [⟨4, 6, cs "[#1](u)"⟩] }
      = .ok (rebuildWith (cs "see #1 x") (fun r => r.text) 0
          (sortByStart [⟨4, 6, cs "[#1](u)"⟩])) ∧
    rebuildWith (cs "see #1 x") (fun r => slice (cs "see #1 x") r.start r.stop) 0
        (sortByStart [⟨4, 6, cs "[#1](u)"⟩]) = cs "see #1 x" :=
  C8_rebuild { sessionOR with src := cs "see #1 x", links := [⟨4, 6, cs "[#1](u)"⟩] }
    ⟨by decide, by decide, by decide, by simp only [spansOK]; decide⟩

/-- Claim C8 counterexample: on `GH-` followed by forty `1`s the external
pass matches `GH-<digits>` over `[0,43)` while the primary pass links the
forty digits as a commit hash over `[3,43)`; the spans overlap, the
rebuilder's slice bounds cross, and the rebuild aborts (Go panics slicing
`src[43:3]`), so the bytes are not emitted exactly once. -/
theorem C8_counterexample :
    Transform sessionOR (cs "GH-1111111111111111111111111111111111111111") (plainTree 0 43)
      = .error () := rfl

/-- Claim C6: external-reference matching tries the registered patterns in
priority (registration) order over the window and the first match wins; a
match needs the regexp word boundary before the prefix and a non-empty
configured suffix; the captured suffix is substituted into the URL
template; the session for `https://github.com/o/r` carries the implicit
default numeric pattern `GH-`, so `GH-9` becomes
`[GH-9](https://github.com/o/r/issues/9)`; and when no pattern matches the
cursor advances to the end of the window. -/
theorem C6_ext_ref :
    (∀ u : List Char, (NewReflinker u).ext = [⟨cs "GH-", false, u ++ cs "/issues/<num>"⟩]) ∧
    (∀ (l : Reflinker) (s e : Nat) (er : ExtRef) (rest : List ExtRef) (ms me : Nat),
        extFind er (slice l.src s e) = some (ms, me) →
        tryExts l s e (er :: rest) =
          ({ l with links := l.links ++ [⟨s + ms, s + me,
              cs "[" ++ slice (slice l.src s e) ms me ++ cs "](" ++
              replaceAll er.url (cs "<num>")
                ((slice (slice l.src s e) ms me).drop er.pre.length) ++ cs ")"⟩] },
           s + me)) ∧
    (∀ (l : Reflinker) (s e : Nat) (er : ExtRef) (rest : List ExtRef),
        extFind er (slice l.src s e) = none →
        tryExts l s e (er :: rest) = tryExts l s e rest) ∧
    (∀ (l : Reflinker) (s e : Nat) (ers : List ExtRef),
        (∀ er ∈ ers, extFind er (slice l.src s e) = none) → tryExts l s e ers = (l, e)) ∧
    (∀ (er : ExtRef) (s : List Char) (ms me : Nat), extFind er s = some (ms, me) →
        wordBoundAt s ms = true ∧ hasPre er.pre (s.drop ms) = true ∧
        ms + er.pre.length < me) ∧
    Transform sessionOR (cs "GH-9") (plainTree 0 4)
      = .ok (cs "[GH-9](https://github.com/o/r/issues/9)") := by
  refine ⟨fun u => rfl, ?_, ?_, ?_, ?_, rfl⟩
  · intro l s e er rest ms me hf
    unfold tryExts
    rw [hf]
  · intro l s e er rest hf
    simp only [tryExts, hf]
  · intro l s e ers h
    induction ers with
    | nil => rfl
    | cons er rest ih =>
      unfold tryExts
      rw [h er (by simp)]
      exact ih fun x hx => h x (by simp [hx])
  · intro er s ms me hf
    have h1 := extFindFrom_some er s _ 0 ms me hf
    exact extMatchEnd_some er s ms me h1.1

/-- Witness for C6: the no-match conjunct at a concrete window. -/
theorem C6_ext_ref_witness :
    tryExts { sessionOR with src := cs "xyz" } 0 3 [⟨cs "GH-", false, cs "u<num>"⟩]
      = ({ sessionOR with src := cs "xyz" }, 3) :=
  C6_ext_ref.2.2.2.1 _ 0 3 _ (by
    intro er h
    simp only [List.mem_singleton] at h
    subst h
    decide)

/-- Claim C10 counterexample: on the faithful goldmark parse of `_GH-9`
(the flanking `_` is an unmatched emphasis delimiter restored as its own
Text node), the external pass examines only the window `GH-9`, where the
regexp `\b` holds at the window start; the default external pattern DOES
link the occurrence even though its prefix is immediately preceded by `_`
in the buffer, so `Transform("_GH-9")` does not leave the text
unchanged. -/
theorem C10_counterexample :
    Transform sessionOR (cs "_GH-9") (splitUnderscoreTree 5)
      = .ok (cs "_[GH-9](https://github.com/o/r/issues/9)") ∧
    cs "_[GH-9](https://github.com/o/r/issues/9)" ≠ cs "_GH-9" :=
  ⟨rfl, by decide⟩

/-- Claim C10, amended: the two passes do classify `_` oppositely — the
builtin byte classifier counts `_` as a boundary (read from the whole
buffer, even outside the segment) while the regexp `\b` counts it as a
word character, but the regexp is evaluated only over the examined window
of a Text segment.  An external-pattern occurrence whose prefix starts
with a word character (as the default `GH-` does) can never match at a
window position directly after a `_`; since goldmark restores a flanking
`_` as its own Text node, the `_` of `_GH-9` lies outside the examined
window, so the builtin issue matcher links `_#9` AND the external pass
links `_GH-9` as well. -/
theorem C10_boundary_disagreement :
    isBoundary '_' = true ∧ isWordChar '_' = true ∧
    (∀ (er : ExtRef) (s : List Char) (i : Nat),
        er.pre ≠ [] → isWordChar (er.pre.getD 0 ' ') = true →
        0 < i → i - 1 < s.length → s.getD (i - 1) ' ' = '_' →
        extMatchEnd er s i = none) ∧
    Transform sessionOR (cs "_#9") (splitUnderscoreTree 3)
      = .ok (cs "_[#9](https://github.com/o/r/issues/9)") ∧
    Transform sessionOR (cs "_GH-9") (splitUnderscoreTree 5)
      = .ok (cs "_[GH-9](https://github.com/o/r/issues/9)") := by
  refine ⟨rfl, rfl, ?_, rfl, rfl⟩
  intro er s i hne hw hi hlen hu
  unfold extMatchEnd
  by_cases hp : hasPre er.pre (s.drop i) = true
  · obtain ⟨a, ps, hpre⟩ : ∃ a ps, er.pre = a :: ps := by
      cases hepre : er.pre with
      | nil => exact absurd hepre hne
      | cons a ps => exact ⟨a, ps, rfl⟩
    rw [hpre] at hp
    obtain ⟨hilen, hia⟩ := hasPre_cons_getD a ps s i hp
    have hwa : isWordChar a = true := by
      rw [hpre] at hw
      simpa using hw
    have h1 : wordAt s ((i : Int) - 1) = true := by
      unfold wordAt
      rw [if_pos (by constructor <;> omega)]
      have ht : ((i : Int) - 1).toNat = i - 1 := by omega
      rw [ht, hu]
      decide
    have h2 : wordAt s (i : Int) = true := by
      unfold wordAt
      rw [if_pos (by constructor <;> omega)]
      have ht : ((i : Int)).toNat = i := by omega
      rw [ht, hia]
      exact hwa
    have hb : wordBoundAt s i = false := by
      unfold wordBoundAt
      rw [h1, h2]
      rfl
    rw [if_neg (by simp [hb])]
  · rw [if_neg (by simp [hp])]

/-- Witness for C10: the default `GH-` pattern cannot match at a window
position right after a `_` that lies inside the window. -/
theorem C10_boundary_disagreement_witness :
    extMatchEnd ⟨cs "GH-", false, cs "u"⟩ (cs "x_GH-9") 2 = none :=
  C10_boundary_disagreement.2.2.1 ⟨cs "GH-", false, cs "u"⟩ (cs "x_GH-9") 2
    (by decide) (by decide) (by decide) (by decide) (by decide)

/-- Fuel irrelevance for the `linkExtRefs` loop (same argument). -/
theorem extRefsLoop_fuel (stop : Nat) :
    ∀ (fuel1 : Nat) (l : Reflinker) (o fuel2 : Nat), stop - 1 - o ≤ fuel1 → stop - 1 - o ≤ fuel2 →
      extRefsLoop l stop o fuel1 = extRefsLoop l stop o fuel2 := by
  intro fuel1
  induction fuel1 with
  | zero =>
    intro l o fuel2 h1 h2
    have ho : ¬ o < stop - 1 := by omega
    cases fuel2 with
    | zero => rfl
    | succ f2 => simp [extRefsLoop, ho]
  | succ f1 ih =>
    intro l o fuel2 h1 h2
    by_cases ho : o < stop - 1
    · cases fuel2 with
      | zero => omega
      | succ f2 =>
        simp only [extRefsLoop, if_pos ho]
        have hp := linkExtRef_progress l o stop ho
        exact ih _ _ f2 (by omega) (by omega)
    · cases fuel2 with
      | zero => simp [extRefsLoop, ho]
      | succ f2 => simp [extRefsLoop, ho]

end Reflink
